import Mathlib

/-!
Shallow embedding of the intermediate-python-web-scraper repository
(src/analysis.py, src/parsers.py, src/web_scraper.py) and verification of
the frozen claims about its specification.

Python scalar field values (string, number, None) are modelled by `Value`,
with numbers as rationals; Python dicts are modelled by association lists.
External collaborators (the CSS selector engine, the URL-join routine, the
HTTP transport with its retry adapter, the robots file reader) are black
boxes in the source as well; they enter the embedding as explicit
parameters or as the already-produced node lists they return.
-/

/-- A Python scalar value as stored in a scraped record: a string, a number
(int and float are both modelled as rationals), or None. -/
inductive Value where
  | s (str : String)
  | n (q : ℚ)
  | none
deriving DecidableEq, Repr

/-- A record (Python dict) of scraped data: an open field-to-scalar mapping,
modelled as an association list with first-match lookup. -/
abbrev Record := List (String × Value)

/-- Python `key in item` on a dict. -/
def hasKey (r : Record) (k : String) : Bool :=
  r.any (fun p => p.1 = k)

/-- Python `item.get(key)`: the stored value, or None when the key is absent. -/
def pyGet (r : Record) (k : String) : Value :=
  match r.find? (fun p => p.1 = k) with
  | some p => p.2
  | Option.none => Value.none

/-- Truthiness of a Python `Optional[str]`: None and the empty string are falsy. -/
def pyTruthy : Option String → Bool
  | Option.none => false
  | some s => s ≠ ""

/-- The filter argument of `DataAggregator.filter_data`: the source accepts
either a callable predicate or a literal value and dispatches on
`callable(value)`; the two runtime shapes are modelled as a tagged sum. -/
inductive FilterArg where
  | pred (f : Value → Bool)
  | lit (v : Value)

/-- `DataAggregator.filter_data` (src/analysis.py lines 51-61): with a callable,
keep records having the key whose value satisfies it; with a literal, keep
records whose `item.get(key)` equals it. -/
def filter_data (data : List Record) (key : String) (value : FilterArg) : List Record :=
  match value with
  | .pred f => data.filter (fun item => hasKey item key && f (pyGet item key))
  | .lit v => data.filter (fun item => pyGet item key == v)

/-- The loop of `DataValidator.remove_duplicates` in the keyed branch
(src/analysis.py lines 158-165): `seen` accumulates key values, a record is
appended when it has the key and its value is unseen. -/
def remove_duplicates_aux (key : String) (seen : List Value) : List Record → List Record
  | [] => []
  | item :: rest =>
    if hasKey item key = true ∧ pyGet item key ∉ seen then
      item :: remove_duplicates_aux key (pyGet item key :: seen) rest
    else
      remove_duplicates_aux key seen rest

/-- Canonical form of a record used by the unkeyed dedup branch:
`tuple(sorted(d.items()))` sorts the items by field name. -/
def canonItems (r : Record) : Record :=
  List.insertionSort (fun a b => a.1 ≤ b.1) r

/-- First-seen deduplication by equality, used to model the unkeyed branch. -/
def dedupFirstSeen : List Record → List Record
  | [] => []
  | r :: rs => r :: (dedupFirstSeen (rs.filter (fun x => x ≠ r)))
termination_by l => l.length
decreasing_by
  exact Nat.lt_succ_of_le (List.length_filter_le _ _)

/-- `DataValidator.remove_duplicates` (src/analysis.py lines 149-168). A falsy
key (None or the empty string) selects the unkeyed branch, which dedups by
full structural equality through a Python set of sorted item tuples; the
set's iteration order is unspecified in the source and is modelled here as
first-seen order of the canonical forms. -/
def remove_duplicates (data : List Record) (key : Option String) : List Record :=
  match key with
  | some k =>
    if k ≠ "" then remove_duplicates_aux k [] data
    else dedupFirstSeen (data.map canonItems)
  | Option.none => dedupFirstSeen (data.map canonItems)

/-- Value of a decimal digit run. -/
def digitsValN (l : List Char) : ℕ :=
  l.foldl (fun a c => 10 * a + (c.toNat - 48)) 0

/-- Lexical shape of a decimal float literal: sign bit, integer-part value,
fraction-part value, and number of fraction digits. -/
def parseShape (s : String) : Option (Bool × ℕ × ℕ × ℕ) :=
  let l := ((s.toList.dropWhile Char.isWhitespace).reverse.dropWhile Char.isWhitespace).reverse
  let (neg, l) : Bool × List Char :=
    match l with
    | '-' :: rest => (true, rest)
    | '+' :: rest => (false, rest)
    | _ => (false, l)
  let intPart := l.takeWhile Char.isDigit
  let l2 := l.dropWhile Char.isDigit
  match l2 with
  | [] => if intPart.isEmpty then Option.none else some (neg, digitsValN intPart, 0, 0)
  | '.' :: rest =>
    if rest.all Char.isDigit && !(intPart.isEmpty && rest.isEmpty) then
      some (neg, digitsValN intPart, digitsValN rest, rest.length)
    else Option.none
  | _ => Option.none

/-- Model of Python `float(string)` on the decimal forms that occur in scraped
data: optional surrounding whitespace, optional sign, then digits with an
optional fractional part (`"12"`, `"12."`, `".5"`, `"1.25"`). Exotic float
literals (exponents, inf, nan, underscores) are treated as non-coercible. -/
def pyParseFloat (s : String) : Option ℚ :=
  (parseShape s).map (fun t =>
    (if t.1 then (-1 : ℚ) else 1) * ((t.2.1 : ℚ) + (t.2.2.1 : ℚ) / (10 : ℚ) ^ t.2.2.2))

/-- Model of Python `float(x)` on a scalar `Value`: numbers coerce to
themselves, strings are parsed, None raises TypeError (no result). -/
def pyFloat : Value → Option ℚ
  | .n q => some q
  | .s str => pyParseFloat str
  | .none => Option.none

/-- `StatisticalAnalyzer.get_numeric_values` (src/analysis.py lines 67-77):
the loop keeps `float(item[key])` for records having the key, and the
`except (ValueError, TypeError): continue` silently skips coercion failures. -/
def get_numeric_values (data : List Record) (key : String) : List ℚ :=
  match data with
  | [] => []
  | item :: rest =>
    if hasKey item key then
      match pyFloat (pyGet item key) with
      | some v => v :: get_numeric_values rest key
      | Option.none => get_numeric_values rest key
    else get_numeric_values rest key

/-- `StatisticalAnalyzer.calculate_average` (src/analysis.py lines 79-90). -/
def calculate_average (values : List ℚ) : Option ℚ :=
  if values = [] then Option.none
  else some (values.sum / values.length)

/-- `StatisticalAnalyzer.calculate_median` (src/analysis.py lines 92-101):
sort (Python `sorted`, modelled by stable merge sort), then take the middle
element, or the mean of the two middle elements for even length. -/
def calculate_median (values : List ℚ) : Option ℚ :=
  if values = [] then Option.none
  else
    let sorted_values := List.insertionSort (fun a b => a ≤ b) values
    let n := sorted_values.length
    if n % 2 = 0 then
      some ((sorted_values.getD (n / 2 - 1) 0 + sorted_values.getD (n / 2) 0) / 2)
    else some (sorted_values.getD (n / 2) 0)

/-- An entry of the statistics dict: a number, or a Python None ("null"). -/
inductive StatVal where
  | num (q : ℚ)
  | null
deriving DecidableEq, Repr

/-- Lift the optional results of the average/median helpers into dict entries,
as storing an `Optional[float]` in the result dict does. -/
def statOf : Option ℚ → StatVal
  | some q => .num q
  | Option.none => .null

/-- `StatisticalAnalyzer.get_statistics` (src/analysis.py lines 110-129):
empty numeric projection yields the empty dict, otherwise the six-entry
summary; `min`/`max` on a nonempty list are folds over the head. -/
def get_statistics (data : List Record) (key : String) : List (String × StatVal) :=
  match get_numeric_values data key with
  | [] => []
  | v :: vs =>
    [("count", .num ((v :: vs).length : ℚ)),
     ("sum", .num (v :: vs).sum),
     ("average", statOf (calculate_average (v :: vs))),
     ("median", statOf (calculate_median (v :: vs))),
     ("min", .num (vs.foldl min v)),
     ("max", .num (vs.foldl max v))]

/-- Specification-side numeric projection: the multiset, in input order, of the
coerced field values of exactly the records whose field is present and
coercible. -/
def numericProjection (data : List Record) (key : String) : List ℚ :=
  data.filterMap (fun r => if hasKey r key then pyFloat (pyGet r key) else Option.none)

/-! ## src/parsers.py: DataCleaner -/

/-- Whitespace as matched by Python's `\s` and `str.strip` on the ASCII range
(space, tab, newline, carriage return, vertical tab, form feed). -/
def pyIsSpace (c : Char) : Bool :=
  c = ' ' || c = '\t' || c = '\n' || c = '\x0d' || c = '\x0b' || c = '\x0c'

/-- Model of `re.sub(r"\s+", " ", text)`: each maximal run of whitespace is
replaced by a single space (emitted at the end of the run). -/
def collapseWS : List Char → List Char
  | [] => []
  | [c] => if pyIsSpace c then [' '] else [c]
  | c1 :: c2 :: cs =>
    if pyIsSpace c1 then
      if pyIsSpace c2 then collapseWS (c2 :: cs) else ' ' :: collapseWS (c2 :: cs)
    else c1 :: collapseWS (c2 :: cs)

/-- Model of Python `str.strip()`: drop whitespace from both ends. -/
def stripWS (l : List Char) : List Char :=
  ((l.dropWhile pyIsSpace).reverse.dropWhile pyIsSpace).reverse

/-- `DataCleaner.clean_text` (src/parsers.py lines 120-129) on character
lists: falsy (empty) input yields the empty string, otherwise collapse
whitespace runs and strip the ends. -/
def cleanTextL (l : List Char) : List Char :=
  if l = [] then [] else stripWS (collapseWS l)

/-- `DataCleaner.clean_text` on strings. -/
def clean_text (s : String) : String :=
  (cleanTextL s.toList).asString

/-! ## src/parsers.py: HTMLParser

The HTML document tree produced by the external parser is modelled as a
node tree; attribute values are modelled as strings (multi-valued
attributes such as `class` are out of scope of the claims). The CSS
selector engine is a black box: functions that consume `soup.select(...)`
take the list of matched nodes as input, and `select_one` results enter as
an `Option Node`. -/

mutual

/-- A parsed HTML node: an element with tag, attributes and children, or a
text node. -/
inductive Node where
  | elem (tag : String) (attrs : List (String × String)) (children : NodeList)
  | text (s : String)
deriving DecidableEq

/-- The children forest of an element node. -/
inductive NodeList where
  | nil
  | cons (head : Node) (tail : NodeList)
deriving DecidableEq

end

/-- Build a children forest from a list of nodes. -/
def NodeList.ofList : List Node → NodeList
  | [] => .nil
  | n :: ns => .cons n (NodeList.ofList ns)

mutual

/-- `element.find_all(...)` restricted to a tag predicate: all descendant
elements (excluding the node itself) whose tag satisfies `p`, in document
(pre-)order. -/
def Node.findAllTag (p : String → Bool) : Node → List Node
  | .elem _ _ cs => NodeList.findAllTag p cs
  | .text _ => []

/-- `find_all` restricted to a tag predicate, over a forest of sibling
subtrees: matching elements in document (pre-)order. -/
def NodeList.findAllTag (p : String → Bool) : NodeList → List Node
  | .nil => []
  | .cons (.elem t a cs) ns =>
    (if p t then [Node.elem t a cs] else []) ++
      NodeList.findAllTag p cs ++ NodeList.findAllTag p ns
  | .cons (.text _) ns => NodeList.findAllTag p ns

end

/-- `element.find(tag)`: the first matching descendant in document order. -/
def Node.findTag (t : String) (n : Node) : Option Node :=
  (n.findAllTag (fun s => s = t)).head?

/-- `element.get(attr)`: attribute lookup; text nodes carry no attributes. -/
def Node.getAttr (a : String) : Node → Option String
  | .elem _ attrs _ =>
    match attrs.find? (fun p => p.1 = a) with
    | some p => some p.2
    | Option.none => Option.none
  | .text _ => Option.none

mutual

/-- `element.get_text(strip=True)`: the concatenation of the stripped text
descendants, in document order. -/
def Node.getTextStrip : Node → String
  | .elem _ _ cs => NodeList.getTextStrip cs
  | .text s => (stripWS s.toList).asString

/-- `get_text(strip=True)` over a forest of sibling subtrees. -/
def NodeList.getTextStrip : NodeList → String
  | .nil => ""
  | .cons n ns => Node.getTextStrip n ++ NodeList.getTextStrip ns

end

/-- `HTMLParser.extract_by_selector_attr` (src/parsers.py lines 47-61): for
each matched node read the attribute, appending only truthy values (`if
value:` skips both a missing attribute and an empty string). -/
def extract_by_selector_attr (matched : List Node) (attr : String) : List String :=
  match matched with
  | [] => []
  | el :: rest =>
    match el.getAttr attr with
    | some v =>
      if v ≠ "" then v :: extract_by_selector_attr rest attr
      else extract_by_selector_attr rest attr
    | Option.none => extract_by_selector_attr rest attr

/-- Python `dict(...)` built from a key-value sequence: insertion order, a
repeated key keeps its first position but takes the last value. -/
def pyDict (l : List (String × String)) : List (String × String) :=
  l.foldl (fun acc kv =>
    if acc.any (fun p => p.1 = kv.1) then
      acc.map (fun p => if p.1 = kv.1 then (p.1, kv.2) else p)
    else acc ++ [kv]) []

/-- `HTMLParser.extract_table` (src/parsers.py lines 63-97), taking the
`select_one(table_selector)` result as input. Headers come from a `thead`
descendant when present, otherwise from the first `tr`, which is then
removed from the row list; rows whose `td` count differs from the header
count are dropped. -/
def extract_table (tableOpt : Option Node) : List (List (String × String)) :=
  match tableOpt with
  | Option.none => []
  | some table =>
    match table.findAllTag (fun t => t = "tr") with
    | [] => []
    | r0 :: rest =>
      let header_row := table.findTag "thead"
      let headers :=
        match header_row with
        | some h => (h.findAllTag (fun t => t = "th" || t = "td")).map Node.getTextStrip
        | Option.none => (r0.findAllTag (fun t => t = "th" || t = "td")).map Node.getTextStrip
      let rows := if header_row.isSome then r0 :: rest else rest
      rows.filterMap (fun row =>
        let cells := row.findAllTag (fun t => t = "td")
        if cells.length = headers.length then
          some (pyDict (headers.zip (cells.map Node.getTextStrip)))
        else Option.none)

/-- The table-extraction contract as the specification words it: header
labels from an explicit header section when present, otherwise from the
first row, which is consumed and excluded from the data rows; each
remaining row with matching cell count becomes a record keyed by the
header labels, any other row is dropped. -/
def specTableExtraction (tableOpt : Option Node) : List (List (String × String)) :=
  match tableOpt with
  | Option.none => []
  | some table =>
    match table.findAllTag (fun t => t = "tr") with
    | [] => []
    | firstRow :: laterRows =>
      let headerSection := table.findTag "thead"
      let headerLabels :=
        match headerSection with
        | some h => (h.findAllTag (fun t => t = "th" || t = "td")).map Node.getTextStrip
        | Option.none => (firstRow.findAllTag (fun t => t = "th" || t = "td")).map Node.getTextStrip
      let dataRows :=
        match headerSection with
        | some _ => firstRow :: laterRows
        | Option.none => laterRows
      dataRows.filterMap (fun row =>
        let cells := (row.findAllTag (fun t => t = "td")).map Node.getTextStrip
        if cells.length = headerLabels.length then some (pyDict (headerLabels.zip cells))
        else Option.none)

/-! ## src/web_scraper.py -/

/-- The `ExtractedItem` dataclass (src/web_scraper.py lines 43-47). -/
structure ExtractedItem where
  source_url : String
  text : Option String
  attr : Option String
deriving DecidableEq, Repr

/-- `extract_items` (src/web_scraper.py lines 93-110), taking the
`soup.select(selector)` result and the external `urljoin` routine as
inputs. A truthy `attr` selects attribute mode: the attribute value is
read (resolved against the base URL for `href`/`src`) and an item is
appended whether or not the node carried the attribute; otherwise the
stripped text content is emitted. -/
def extract_items (join : String → String → String) (matched : List Node)
    (base_url : String) (attr : Option String) : List ExtractedItem :=
  matched.map (fun el =>
    if pyTruthy attr then
      let a := attr.getD ""
      let val := el.getAttr a
      let val := match val with
        | some s => if a = "href" || a = "src" then some (join base_url s) else some s
        | Option.none => Option.none
      ⟨base_url, Option.none, val⟩
    else ⟨base_url, some el.getTextStrip, Option.none⟩)

/-- A robots policy as exposed by the external robots parser: `can_fetch`
for a user agent and URL. -/
structure RobotsPolicy where
  canFetch : String → String → Bool

/-- The default User-Agent header (src/web_scraper.py lines 38-40). -/
def userAgent : String := "intermediate-python-web-scraper/1.0 (+https://github.com)"

/-- `Fetcher` session state relevant to the claims: the optional base URL
and the robots policy cache (src/web_scraper.py lines 53-65). -/
structure FetcherState where
  baseUrl : Option String
  robots : Option RobotsPolicy

/-- `Fetcher._init_robots` (src/web_scraper.py lines 67-76): the result of
reading the robots file is stored; any exception while loading or parsing
leaves the cache empty. -/
def init_robots (loadResult : Except Unit RobotsPolicy) : Option RobotsPolicy :=
  match loadResult with
  | .ok rp => some rp
  | .error _ => Option.none

/-- `Fetcher.allowed` (src/web_scraper.py lines 78-81): with no cached
policy every URL is allowed, otherwise defer to `can_fetch`. -/
def Fetcher.allowed (f : FetcherState) (url : String) : Bool :=
  match f.robots with
  | Option.none => true
  | some rp => rp.canFetch userAgent url

/-- An HTTP response as returned by the pooled transport (the retry adapter
is part of the black-box transport). -/
structure HttpResponse where
  status : Nat
  body : String
deriving DecidableEq, Repr

/-- The failure outcomes of `Fetcher.get`: the robots denial and the
`raise_for_status` HTTP error. -/
inductive FetchError where
  | permissionError (url : String)
  | httpError (status : Nat)
deriving DecidableEq, Repr

/-- Result of a `get` call together with the list of HTTP requests issued. -/
structure GetOutcome where
  result : Except FetchError HttpResponse
  requests : List String

/-- The URL actually fetched by `Fetcher.get`: joined against the base URL
when one is set. -/
def resolvedUrl (f : FetcherState) (join : String → String → String) (url : String) : String :=
  match f.baseUrl with
  | some b => join b url
  | Option.none => url

/-- `Fetcher.get` (src/web_scraper.py lines 83-90), with the external
`urljoin` routine and the HTTP transport as inputs: resolve the URL, raise
`PermissionError` without any request when the gate denies it, otherwise
issue the request and `raise_for_status` on a 4xx/5xx status. -/
def Fetcher.get (f : FetcherState) (join : String → String → String)
    (http : String → HttpResponse) (url : String) : GetOutcome :=
  let u := resolvedUrl f join url
  if !(Fetcher.allowed f u) then ⟨.error (.permissionError u), []⟩
  else
    let resp := http u
    if 400 ≤ resp.status then ⟨.error (.httpError resp.status), [u]⟩
    else ⟨.ok resp, [u]⟩

example : pyParseFloat "19.99" = some (1999 / 100) := by
  simp [pyParseFloat, show parseShape "19.99" = some (false, 19, 99, 2) from rfl]
  norm_num
example : pyParseFloat "x2" = Option.none := by rfl
example : calculate_median [1, 2, 3] = some 2 := by rfl
example : clean_text "  a\n\t b  " = "a b" := by rfl
example : extract_table (some (.elem "table" [] (NodeList.ofList [
    .elem "tr" [] (NodeList.ofList [.elem "th" [] (NodeList.ofList [.text "h1"]),
      .elem "th" [] (NodeList.ofList [.text "h2"])]),
    .elem "tr" [] (NodeList.ofList [.elem "td" [] (NodeList.ofList [.text "x"]),
      .elem "td" [] (NodeList.ofList [.text "y"])]),
    .elem "tr" [] (NodeList.ofList [.elem "td" [] (NodeList.ofList [.text "z"])])]))) =
    [[("h1", "x"), ("h2", "y")]] := by rfl

/-! ## Helper lemmas -/

theorem pyGet_of_hasKey_false {r : Record} {k : String} (h : hasKey r k = false) :
    pyGet r k = Value.none := by
  have hfind : r.find? (fun p => p.1 = k) = Option.none := by
    rw [List.find?_eq_none]
    intro p hp
    have := (List.any_eq_false.mp h) p hp
    simpa using this
  simp [pyGet, hfind]

theorem remove_duplicates_aux_sublist (k : String) (seen : List Value) (data : List Record) :
    (remove_duplicates_aux k seen data).Sublist data := by
  induction data generalizing seen with
  | nil => simp [remove_duplicates_aux]
  | cons item rest ih =>
    rw [remove_duplicates_aux]
    split
    · exact (ih _).cons₂ item
    · exact (ih _).cons item

theorem remove_duplicates_aux_mem {k : String} {seen : List Value} {data : List Record}
    {r : Record} (h : r ∈ remove_duplicates_aux k seen data) :
    hasKey r k = true ∧ pyGet r k ∉ seen := by
  induction data generalizing seen with
  | nil => simp [remove_duplicates_aux] at h
  | cons item rest ih =>
    rw [remove_duplicates_aux] at h
    split at h
    · rename_i hc
      rcases List.mem_cons.mp h with rfl | h2
      · exact hc
      · have h3 := ih h2
        exact ⟨h3.1, fun hm => h3.2 (List.mem_cons_of_mem _ hm)⟩
    · exact ih h

theorem remove_duplicates_aux_keyvals_nodup (k : String) (seen : List Value)
    (data : List Record) :
    ((remove_duplicates_aux k seen data).map (fun r => pyGet r k)).Nodup := by
  induction data generalizing seen with
  | nil => simp [remove_duplicates_aux]
  | cons item rest ih =>
    rw [remove_duplicates_aux]
    split
    · simp only [List.map_cons, List.nodup_cons]
      refine ⟨?_, ih _⟩
      intro hmem
      obtain ⟨r', hr', heq⟩ := List.mem_map.mp hmem
      exact (remove_duplicates_aux_mem hr').2 (by rw [heq]; exact List.mem_cons_self _ _)
    · exact ih _

theorem remove_duplicates_aux_first {k : String} {seen : List Value} {data : List Record}
    {r : Record} (h : r ∈ remove_duplicates_aux k seen data) :
    ∃ pre suf, data = pre ++ r :: suf ∧
      ∀ r' ∈ pre, hasKey r' k = true → pyGet r' k = pyGet r k → pyGet r' k ∈ seen := by
  induction data generalizing seen with
  | nil => simp [remove_duplicates_aux] at h
  | cons item rest ih =>
    rw [remove_duplicates_aux] at h
    split at h
    · rename_i hc
      rcases List.mem_cons.mp h with rfl | h2
      · exact ⟨[], rest, rfl, by simp⟩
      · obtain ⟨pre, suf, hdata, hpre⟩ := ih h2
        refine ⟨item :: pre, suf, by rw [hdata]; rfl, ?_⟩
        intro r' hr' hk heq
        have hnot := (remove_duplicates_aux_mem h2).2
        rcases List.mem_cons.mp hr' with rfl | hr'2
        · exact absurd (by rw [← heq]; exact List.mem_cons_self _ _) hnot
        · have hin := hpre r' hr'2 hk heq
          rcases List.mem_cons.mp hin with he | hs
          · exact absurd (by rw [← heq, he]; exact List.mem_cons_self _ _) hnot
          · exact hs
    · rename_i hc
      obtain ⟨pre, suf, hdata, hpre⟩ := ih h
      refine ⟨item :: pre, suf, by rw [hdata]; rfl, ?_⟩
      intro r' hr' hk heq
      rcases List.mem_cons.mp hr' with rfl | hr'2
      · exact not_not.mp (fun hn => hc ⟨hk, hn⟩)
      · exact hpre r' hr'2 hk heq

theorem remove_duplicates_aux_complete {k : String} {seen : List Value} {data : List Record}
    {r : Record} (hmem : r ∈ data) (hk : hasKey r k = true) (hs : pyGet r k ∉ seen) :
    ∃ r' ∈ remove_duplicates_aux k seen data, pyGet r' k = pyGet r k := by
  induction data generalizing seen with
  | nil => simp at hmem
  | cons item rest ih =>
    rw [remove_duplicates_aux]
    split
    · rename_i hc
      by_cases hv : pyGet item k = pyGet r k
      · exact ⟨item, List.mem_cons_self _ _, hv⟩
      · have hr2 : r ∈ rest := by
          rcases List.mem_cons.mp hmem with rfl | h2
          · exact absurd rfl hv
          · exact h2
        have hs2 : pyGet r k ∉ pyGet item k :: seen := by
          intro hin
          rcases List.mem_cons.mp hin with he | h2
          · exact hv he.symm
          · exact hs h2
        obtain ⟨r', hr', heq⟩ := ih hr2 hs2
        exact ⟨r', List.mem_cons_of_mem _ hr', heq⟩
    · rename_i hc
      have hr2 : r ∈ rest := by
        rcases List.mem_cons.mp hmem with rfl | h2
        · exact absurd (not_not.mp (fun hn => hc ⟨hk, hn⟩)) hs
        · exact h2
      exact ih hr2 hs

theorem remove_duplicates_keyed (data : List Record) (k : String) (hk : k ≠ "") :
    remove_duplicates data (some k) = remove_duplicates_aux k [] data := by
  simp [remove_duplicates, hk]

/-! ## Claim theorems -/

/-- C3, counterexample: `filter_data` with a literal value of None does match a
record lacking the key — on input `[{}]` with key `"k"` and literal None the
record `{}` is returned even though it has no `"k"` field, so the claim that
records lacking the key never match for any argument is false. -/
theorem C3_counterexample :
    filter_data [([] : Record)] "k" (.lit Value.none) = [([] : Record)] ∧
      hasKey ([] : Record) "k" = false :=
  ⟨rfl, rfl⟩

/-- C3 (amended): `filter_data` never matches a record lacking the key when the
argument is a predicate, or when it is a literal value other than None; a
literal None, however, also matches records lacking the key (Python's
`item.get(key) == value` sees the get-default None). -/
theorem C3_filter_data_missing_key (data : List Record) (k : String) (r : Record) :
    (∀ f : Value → Bool, r ∈ filter_data data k (.pred f) → hasKey r k = true) ∧
    (∀ v : Value, v ≠ Value.none → r ∈ filter_data data k (.lit v) → hasKey r k = true) := by
  constructor
  · intro f hr
    have hcond := (List.mem_filter.mp hr).2
    exact (Bool.and_eq_true _ _).mp hcond |>.1
  · intro v hv hr
    have hcond := (List.mem_filter.mp hr).2
    have heq : pyGet r k = v := by simpa using hcond
    by_contra hkf
    have hnone : pyGet r k = Value.none :=
      pyGet_of_hasKey_false (Bool.not_eq_true _ ▸ hkf)
    exact hv (heq ▸ hnone)

theorem C3_witness : hasKey [("k", Value.n 1)] "k" = true :=
  (C3_filter_data_missing_key [[("k", Value.n 1)]] "k" [("k", Value.n 1)]).2
    (Value.n 1) (by decide) (by decide)

/-- C4: keyed `remove_duplicates` returns a subsequence of the input whose key
values are pairwise distinct; every kept record is the first record in the
input carrying its key value, every key value occurring in the input is
represented, and the worked example keeps the first records for ids 1 and 2. -/
theorem C4_remove_duplicates_by_key :
    (∀ (data : List Record) (k : String), k ≠ "" →
       ((remove_duplicates data (some k)).Sublist data ∧
        ((remove_duplicates data (some k)).map (fun r => pyGet r k)).Nodup ∧
        (∀ r ∈ remove_duplicates data (some k),
           ∃ pre suf, data = pre ++ r :: suf ∧
             ∀ r' ∈ pre, hasKey r' k = true → pyGet r' k ≠ pyGet r k) ∧
        (∀ r ∈ data, hasKey r k = true →
           ∃ r' ∈ remove_duplicates data (some k), pyGet r' k = pyGet r k))) ∧
    remove_duplicates
      [[("id", Value.n 1), ("v", Value.s "a")],
       [("id", Value.n 2), ("v", Value.s "b")],
       [("id", Value.n 1), ("v", Value.s "c")]] (some "id") =
      [[("id", Value.n 1), ("v", Value.s "a")],
       [("id", Value.n 2), ("v", Value.s "b")]] := by
  constructor
  · intro data k hk
    rw [remove_duplicates_keyed data k hk]
    refine ⟨remove_duplicates_aux_sublist k [] data,
      remove_duplicates_aux_keyvals_nodup k [] data, ?_, ?_⟩
    · intro r hr
      obtain ⟨pre, suf, hdata, hpre⟩ := remove_duplicates_aux_first hr
      refine ⟨pre, suf, hdata, ?_⟩
      intro r' h1 h2 heq
      simpa using hpre r' h1 h2 heq
    · intro r hr hk2
      exact remove_duplicates_aux_complete hr hk2 (by simp)
  · decide

theorem C4_witness :
    (remove_duplicates [[("id", Value.n 1)], [("id", Value.n 1)]] (some "id")).Sublist
      [[("id", Value.n 1)], [("id", Value.n 1)]] :=
  (C4_remove_duplicates_by_key.1 [[("id", Value.n 1)], [("id", Value.n 1)]] "id"
    (by decide)).1

/-- C10: keyed `remove_duplicates` drops every record that lacks the key —
a record without the key never appears in the output. -/
theorem C10_remove_duplicates_drops_keyless (data : List Record) (k : String) (r : Record)
    (hk : k ≠ "") (hr : r ∈ remove_duplicates data (some k)) : hasKey r k = true := by
  rw [remove_duplicates_keyed data k hk] at hr
  exact (remove_duplicates_aux_mem hr).1

theorem C10_witness : hasKey [("id", Value.n 1)] "id" = true :=
  C10_remove_duplicates_drops_keyless [[("id", Value.n 1)], [("x", Value.n 2)]] "id"
    [("id", Value.n 1)] (by decide) (by decide)

theorem get_numeric_values_eq (data : List Record) (key : String) :
    get_numeric_values data key = numericProjection data key := by
  induction data with
  | nil => rfl
  | cons item rest ih =>
    rw [get_numeric_values, numericProjection, List.filterMap_cons]
    by_cases hk : hasKey item key
    · cases hf : pyFloat (pyGet item key) with
      | none => simpa [hk, hf] using ih
      | some v => simpa [hk, hf] using ih
    · simpa [hk] using ih

theorem foldl_min_mem (v : ℚ) (vs : List ℚ) : vs.foldl min v ∈ v :: vs := by
  induction vs generalizing v with
  | nil => simp
  | cons x xs ih =>
    simp only [List.foldl_cons]
    rcases List.mem_cons.mp (ih (min v x)) with he | hm
    · rcases min_choice v x with h1 | h1 <;> rw [h1] at he ⊢ <;> simp [he]
    · simp [List.mem_cons.mpr (Or.inr (List.mem_cons_of_mem _ hm))]

theorem foldl_min_le (vs : List ℚ) : ∀ (v : ℚ), ∀ x ∈ v :: vs, vs.foldl min v ≤ x := by
  induction vs with
  | nil =>
    intro v x hx
    rcases List.mem_cons.mp hx with rfl | h
    · simp
    · simp at h
  | cons y ys ih =>
    intro v x hx
    simp only [List.foldl_cons]
    have hbound : List.foldl min (min v y) ys ≤ min v y :=
      ih (min v y) (min v y) (List.mem_cons_self _ _)
    rcases List.mem_cons.mp hx with rfl | hx2
    · exact le_trans hbound (min_le_left _ _)
    · rcases List.mem_cons.mp hx2 with rfl | hx3
      · exact le_trans hbound (min_le_right _ _)
      · exact ih (min v y) x (List.mem_cons_of_mem _ hx3)

theorem foldl_max_mem (v : ℚ) (vs : List ℚ) : vs.foldl max v ∈ v :: vs := by
  induction vs generalizing v with
  | nil => simp
  | cons x xs ih =>
    simp only [List.foldl_cons]
    rcases List.mem_cons.mp (ih (max v x)) with he | hm
    · rcases max_choice v x with h1 | h1 <;> rw [h1] at he ⊢ <;> simp [he]
    · simp [List.mem_cons.mpr (Or.inr (List.mem_cons_of_mem _ hm))]

theorem foldl_max_le (vs : List ℚ) : ∀ (v : ℚ), ∀ x ∈ v :: vs, x ≤ vs.foldl max v := by
  induction vs with
  | nil =>
    intro v x hx
    rcases List.mem_cons.mp hx with rfl | h
    · simp
    · simp at h
  | cons y ys ih =>
    intro v x hx
    simp only [List.foldl_cons]
    have hbound : max v y ≤ List.foldl max (max v y) ys :=
      ih (max v y) (max v y) (List.mem_cons_self _ _)
    rcases List.mem_cons.mp hx with rfl | hx2
    · exact le_trans (le_max_left _ _) hbound
    · rcases List.mem_cons.mp hx2 with rfl | hx3
      · exact le_trans (le_max_right _ _) hbound
      · exact ih (max v y) x (List.mem_cons_of_mem _ hx3)

/-- C6: `get_statistics` works over exactly the records whose field value
coerces to a number (absent or non-coercible values excluded, no error):
the numeric projection is the ordered list of coerced field values, an
empty projection yields the empty statistics object, and a nonempty one
yields the six-entry object whose count/sum/average are those of the
projection, whose median is the computed median, whose min and max are an
attained lower and upper bound of the projection, and which has no null
entry. -/
theorem C6_get_statistics (data : List Record) (key : String) :
    get_numeric_values data key = numericProjection data key ∧
    (get_statistics data key = [] ↔ numericProjection data key = []) ∧
    (∀ v vs, numericProjection data key = v :: vs →
      ∃ m mn mx,
        calculate_median (v :: vs) = some m ∧
        mn ∈ v :: vs ∧ (∀ x ∈ v :: vs, mn ≤ x) ∧
        mx ∈ v :: vs ∧ (∀ x ∈ v :: vs, x ≤ mx) ∧
        get_statistics data key =
          [("count", StatVal.num ((v :: vs).length : ℚ)),
           ("sum", StatVal.num ((v :: vs).sum)),
           ("average", StatVal.num ((v :: vs).sum / ((v :: vs).length : ℚ))),
           ("median", StatVal.num m),
           ("min", StatVal.num mn),
           ("max", StatVal.num mx)] ∧
        ∀ p ∈ get_statistics data key, p.2 ≠ StatVal.null) := by
  have hgnv := get_numeric_values_eq data key
  refine ⟨hgnv, ?_, ?_⟩
  · rw [get_statistics, hgnv]
    cases numericProjection data key with
    | nil => simp
    | cons v vs => simp
  · intro v vs hproj
    have hmed : calculate_median (v :: vs) =
        some (if (List.insertionSort (fun a b => a ≤ b) (v :: vs)).length % 2 = 0 then
          ((List.insertionSort (fun a b => a ≤ b) (v :: vs)).getD
            ((List.insertionSort (fun a b => a ≤ b) (v :: vs)).length / 2 - 1) 0 +
           (List.insertionSort (fun a b => a ≤ b) (v :: vs)).getD
            ((List.insertionSort (fun a b => a ≤ b) (v :: vs)).length / 2) 0) / 2
        else (List.insertionSort (fun a b => a ≤ b) (v :: vs)).getD
            ((List.insertionSort (fun a b => a ≤ b) (v :: vs)).length / 2) 0) := by
      rw [calculate_median, if_neg (List.cons_ne_nil v vs), apply_ite some]
    have havg : calculate_average (v :: vs) =
        some ((v :: vs).sum / ((v :: vs).length : ℚ)) := by
      rw [calculate_average, if_neg (List.cons_ne_nil v vs)]
    have hstats : get_statistics data key =
        [("count", StatVal.num ((v :: vs).length : ℚ)),
         ("sum", StatVal.num ((v :: vs).sum)),
         ("average", statOf (calculate_average (v :: vs))),
         ("median", statOf (calculate_median (v :: vs))),
         ("min", StatVal.num (vs.foldl min v)),
         ("max", StatVal.num (vs.foldl max v))] := by
      rw [get_statistics, hgnv, hproj]
    refine ⟨_, vs.foldl min v, vs.foldl max v, hmed, foldl_min_mem v vs,
      foldl_min_le vs v, foldl_max_mem v vs, foldl_max_le vs v, ?_, ?_⟩
    · rw [hstats, havg, hmed]
      rfl
    · intro p hp
      rw [hstats, havg, hmed] at hp
      simp only [statOf, List.mem_cons, List.not_mem_nil, or_false] at hp
      rcases hp with h | h | h | h | h | h <;> simp [h]

theorem C6_witness :
    ∃ m mn mx,
      calculate_median ((2 : ℚ) :: []) = some m ∧
      mn ∈ (2 : ℚ) :: [] ∧ (∀ x ∈ (2 : ℚ) :: [], mn ≤ x) ∧
      mx ∈ (2 : ℚ) :: [] ∧ (∀ x ∈ (2 : ℚ) :: [], x ≤ mx) ∧
      get_statistics [[("p", Value.n 2)], [("p", Value.s "zzz")], []] "p" =
        [("count", StatVal.num ((((2 : ℚ) :: []).length : ℕ) : ℚ)),
         ("sum", StatVal.num (((2 : ℚ) :: []).sum)),
         ("average", StatVal.num (((2 : ℚ) :: []).sum / ((((2 : ℚ) :: []).length : ℕ) : ℚ))),
         ("median", StatVal.num m),
         ("min", StatVal.num mn),
         ("max", StatVal.num mx)] ∧
      ∀ p ∈ get_statistics [[("p", Value.n 2)], [("p", Value.s "zzz")], []] "p",
        p.2 ≠ StatVal.null :=
  (C6_get_statistics [[("p", Value.n 2)], [("p", Value.s "zzz")], []] "p").2.2 2 []
    (by rfl)

/-- C7: for a nonempty list of numbers the median is the mean of the two
central elements of the sorted list for even length, and the exact central
element for odd length — stated against any sorted permutation of the
input — and the two worked examples evaluate as the specification says. -/
theorem C7_calculate_median :
    (∀ (values l : List ℚ), values ≠ [] →
      l.Sorted (fun a b => a ≤ b) → values.Perm l →
      calculate_median values =
        some (if l.length % 2 = 0 then
                (l.getD (l.length / 2 - 1) 0 + l.getD (l.length / 2) 0) / 2
              else l.getD (l.length / 2) 0)) ∧
    calculate_median [1, 2, 3, 4] = some (5 / 2) ∧
    calculate_median [1, 2, 3] = some 2 := by
  refine ⟨?_, ?_, by rfl⟩
  · intro values l hne hsort hperm
    have hs2 : (List.insertionSort (fun a b => a ≤ b) values).Sorted (fun a b => a ≤ b) :=
      List.sorted_insertionSort _ values
    have hp : (List.insertionSort (fun a b => a ≤ b) values).Perm l :=
      (List.perm_insertionSort _ values).trans hperm
    have heq : List.insertionSort (fun a b => a ≤ b) values = l :=
      List.eq_of_perm_of_sorted hp hs2 hsort
    rw [calculate_median, if_neg hne]
    simp only [heq]
    rw [apply_ite some]
  · have hs : List.insertionSort (fun a b => a ≤ b) ([1, 2, 3, 4] : List ℚ) = [1, 2, 3, 4] :=
      rfl
    simp [calculate_median, hs]
    norm_num

theorem C7_witness : calculate_median [3, 1, 2] = some 2 := by
  have h := C7_calculate_median.1 [3, 1, 2] [1, 2, 3] (by decide) (by decide) (by decide)
  simpa using h

theorem collapseWS_spaces (l : List Char) :
    ∀ c ∈ collapseWS l, pyIsSpace c = true → c = ' ' := by
  induction l with
  | nil => simp [collapseWS]
  | cons c cs ih =>
    cases cs with
    | nil =>
      by_cases hc : pyIsSpace c = true
      · simp [collapseWS, hc]
      · simp only [collapseWS, if_neg hc]
        intro d hd hsp
        simp at hd
        subst hd
        exact absurd hsp hc
    | cons c2 cs' =>
      by_cases hc : pyIsSpace c = true
      · by_cases hc2 : pyIsSpace c2 = true
        · simp only [collapseWS, if_pos hc, if_pos hc2]
          exact ih
        · simp only [collapseWS, if_pos hc, if_neg hc2]
          intro d hd hsp
          rcases List.mem_cons.mp hd with rfl | hd2
          · rfl
          · exact ih d hd2 hsp
      · simp only [collapseWS, if_neg hc]
        intro d hd hsp
        rcases List.mem_cons.mp hd with rfl | hd2
        · exact absurd hsp hc
        · exact ih d hd2 hsp

theorem collapseWS_chain (l : List Char) :
    (collapseWS l).Chain' (fun a b => ¬(pyIsSpace a = true ∧ pyIsSpace b = true)) ∧
    (∀ d, (collapseWS l).head? = some d → pyIsSpace d = true →
      ∃ e, l.head? = some e ∧ pyIsSpace e = true) := by
  induction l with
  | nil => exact ⟨List.chain'_nil, by intro d hd; simp [collapseWS] at hd⟩
  | cons c cs ih =>
    cases cs with
    | nil =>
      by_cases hc : pyIsSpace c = true
      · refine ⟨by simp [collapseWS, hc], ?_⟩
        intro d hd hsp
        exact ⟨c, rfl, hc⟩
      · refine ⟨by simp [collapseWS, hc], ?_⟩
        intro d hd hsp
        simp only [collapseWS, if_neg hc, List.head?_cons] at hd
        cases hd
        exact absurd hsp hc
    | cons c2 cs' =>
      obtain ⟨ihc, ihh⟩ := ih
      by_cases hc : pyIsSpace c = true
      · by_cases hc2 : pyIsSpace c2 = true
        · simp only [collapseWS, if_pos hc, if_pos hc2]
          refine ⟨ihc, ?_⟩
          intro d hd hsp
          exact ⟨c, rfl, hc⟩
        · simp only [collapseWS, if_pos hc, if_neg hc2]
          constructor
          · rw [List.chain'_cons']
            refine ⟨?_, ihc⟩
            intro y hy
            rintro ⟨hsp1, hsp2⟩
            obtain ⟨e, he, hesp⟩ := ihh y (Option.mem_def.mp hy) hsp2
            rw [List.head?_cons] at he
            cases he
            exact hc2 hesp
          · intro d hd hsp
            exact ⟨c, rfl, hc⟩
      · simp only [collapseWS, if_neg hc]
        constructor
        · rw [List.chain'_cons']
          refine ⟨?_, ihc⟩
          intro y hy
          rintro ⟨hsp1, hsp2⟩
          exact hc hsp1
        · intro d hd hsp
          rw [List.head?_cons] at hd
          cases hd
          exact absurd hsp hc

theorem collapseWS_eq_self (l : List Char)
    (h1 : ∀ c ∈ l, pyIsSpace c = true → c = ' ')
    (h2 : l.Chain' (fun a b => ¬(pyIsSpace a = true ∧ pyIsSpace b = true))) :
    collapseWS l = l := by
  induction l with
  | nil => rfl
  | cons c cs ih =>
    cases cs with
    | nil =>
      by_cases hc : pyIsSpace c = true
      · simp only [collapseWS, if_pos hc]
        rw [h1 c (List.mem_cons_self _ _) hc]
      · simp only [collapseWS, if_neg hc]
    | cons c2 cs' =>
      have hrel := (List.chain'_cons.mp h2).1
      have htail := (List.chain'_cons.mp h2).2
      have h1t : ∀ d ∈ c2 :: cs', pyIsSpace d = true → d = ' ' :=
        fun d hd => h1 d (List.mem_cons_of_mem _ hd)
      by_cases hc : pyIsSpace c = true
      · have hc2 : ¬ pyIsSpace c2 = true := fun hsp2 => hrel ⟨hc, hsp2⟩
        simp only [collapseWS, if_pos hc, if_neg hc2]
        rw [ih h1t htail, h1 c (List.mem_cons_self _ _) hc]
      · simp only [collapseWS, if_neg hc]
        rw [ih h1t htail]

theorem dropWhile_suffix_decomp (p : Char → Bool) (l : List Char) :
    ∃ s, s ++ l.dropWhile p = l := by
  induction l with
  | nil => exact ⟨[], rfl⟩
  | cons c cs ih =>
    by_cases hc : p c = true
    · obtain ⟨s, hs⟩ := ih
      exact ⟨c :: s, by simp [List.dropWhile_cons, hc, hs]⟩
    · exact ⟨[], by simp [List.dropWhile_cons, hc]⟩

theorem stripWS_eq_rdropWhile (l : List Char) :
    stripWS l = List.rdropWhile pyIsSpace (l.dropWhile pyIsSpace) := rfl

theorem stripWS_infix_decomp (l : List Char) :
    ∃ s t, s ++ stripWS l ++ t = l := by
  obtain ⟨s, hs⟩ := dropWhile_suffix_decomp pyIsSpace l
  obtain ⟨t, ht⟩ := List.rdropWhile_prefix pyIsSpace (l.dropWhile pyIsSpace)
  refine ⟨s, t, ?_⟩
  rw [stripWS_eq_rdropWhile, List.append_assoc, ht, hs]

theorem head_dropWhile_not (p : Char → Bool) (l : List Char) {c : Char} {r : List Char}
    (h : l.dropWhile p = c :: r) : p c = false := by
  induction l with
  | nil => simp [List.dropWhile] at h
  | cons a as ih =>
    rw [List.dropWhile_cons] at h
    by_cases ha : p a = true
    · rw [if_pos ha] at h
      exact ih h
    · rw [if_neg ha] at h
      cases h
      simpa using ha

theorem stripWS_head_not {l : List Char} {c : Char} (h : (stripWS l).head? = some c) :
    pyIsSpace c = false := by
  obtain ⟨t, ht⟩ := List.rdropWhile_prefix pyIsSpace (l.dropWhile pyIsSpace)
  rw [← stripWS_eq_rdropWhile] at ht
  cases hs : stripWS l with
  | nil => rw [hs] at h; simp at h
  | cons d r' =>
    rw [hs, List.head?_cons] at h
    cases h
    rw [hs] at ht
    exact head_dropWhile_not pyIsSpace l ht.symm

theorem dropWhile_eq_self_of_head (p : Char → Bool) {l : List Char}
    (h : ∀ c r, l = c :: r → p c = false) : l.dropWhile p = l := by
  cases l with
  | nil => rfl
  | cons c r =>
    rw [List.dropWhile_cons, h c r rfl]
    simp

theorem stripWS_stripWS (l : List Char) : stripWS (stripWS l) = stripWS l := by
  by_cases hnil : stripWS l = []
  · rw [hnil]
    rfl
  · rw [stripWS_eq_rdropWhile (stripWS l)]
    have hdw : (stripWS l).dropWhile pyIsSpace = stripWS l := by
      refine dropWhile_eq_self_of_head pyIsSpace ?_
      intro c r hcr
      exact stripWS_head_not (by rw [hcr, List.head?_cons])
    rw [hdw, List.rdropWhile_eq_self_iff]
    intro hne
    exact List.rdropWhile_last_not pyIsSpace (l.dropWhile pyIsSpace) hne

theorem cleanTextL_idem (l : List Char) : cleanTextL (cleanTextL l) = cleanTextL l := by
  by_cases hl : l = []
  · subst hl
    rfl
  · have hstep : cleanTextL l = stripWS (collapseWS l) := by rw [cleanTextL, if_neg hl]
    rw [hstep]
    by_cases hrnil : stripWS (collapseWS l) = []
    · rw [hrnil]
      rfl
    · rw [cleanTextL, if_neg hrnil]
      obtain ⟨s, t, hst⟩ := stripWS_infix_decomp (collapseWS l)
      have hsub : ∀ c ∈ stripWS (collapseWS l), c ∈ collapseWS l := by
        intro c hc
        rw [← hst]
        simp [hc]
      have hP1 : ∀ c ∈ stripWS (collapseWS l), pyIsSpace c = true → c = ' ' :=
        fun c hc => collapseWS_spaces l c (hsub c hc)
      have hP2 : (stripWS (collapseWS l)).Chain'
          (fun a b => ¬(pyIsSpace a = true ∧ pyIsSpace b = true)) := by
        have hinf : stripWS (collapseWS l) <:+: collapseWS l := ⟨s, t, hst⟩
        exact List.Chain'.infix (collapseWS_chain l).1 hinf
      rw [collapseWS_eq_self _ hP1 hP2]
      exact stripWS_stripWS (collapseWS l)

/-- C9: `clean_text` is idempotent — cleaning already-cleaned text (whitespace
runs collapsed to single spaces, ends trimmed, empty input mapped to the
empty string) changes nothing. -/
theorem C9_clean_text_idempotent (s : String) : clean_text (clean_text s) = clean_text s := by
  have hround : ∀ l : List Char, (l.asString).toList = l := fun l => rfl
  rw [clean_text, clean_text, hround, cleanTextL_idem]

/-- C1, counterexample: in attribute mode `extract_items` does NOT skip a
matched node that lacks the attribute — a single anchor element without
`href` yields one item (with an absent attr), not an empty output. -/
theorem C1_counterexample :
    extract_items (fun b r => b ++ r) [Node.elem "a" [] NodeList.nil] "http://ex"
        (some "href") =
      [⟨"http://ex", Option.none, Option.none⟩] ∧
    extract_items (fun b r => b ++ r) [Node.elem "a" [] NodeList.nil] "http://ex"
        (some "href") ≠ [] :=
  ⟨rfl, by decide⟩

/-- C1 (amended): in attribute-extraction mode a matched node lacking the
attribute is not an error, but `extract_items` still emits an item for it —
one with both text and attr absent — while the list extractor
`extract_by_selector_attr` in the parsers module is the one that skips such
nodes entirely. -/
theorem C1_missing_attribute (join : String → String → String)
    (ms1 ms2 : List Node) (el : Node) (base a : String)
    (ha : a ≠ "") (hel : el.getAttr a = Option.none) :
    extract_items join (ms1 ++ el :: ms2) base (some a) =
      extract_items join ms1 base (some a) ++
        ⟨base, Option.none, Option.none⟩ :: extract_items join ms2 base (some a) ∧
    extract_by_selector_attr (ms1 ++ el :: ms2) a =
      extract_by_selector_attr ms1 a ++ extract_by_selector_attr ms2 a := by
  constructor
  · simp [extract_items, pyTruthy, ha, hel]
  · induction ms1 with
    | nil =>
      simp [extract_by_selector_attr, hel]
    | cons m ms ih =>
      simp only [List.cons_append]
      cases hm : m.getAttr a with
      | none =>
        simp only [extract_by_selector_attr, hm]
        exact ih
      | some v =>
        by_cases hv : v ≠ ""
        · simp only [extract_by_selector_attr, hm, if_pos hv]
          rw [ih]
          rfl
        · simp only [extract_by_selector_attr, hm, if_neg hv]
          exact ih

theorem C1_witness :
    extract_items (fun b r => b ++ r) [Node.elem "a" [] NodeList.nil] "u" (some "x") =
      extract_items (fun b r => b ++ r) [] "u" (some "x") ++
        ⟨"u", Option.none, Option.none⟩ ::
          extract_items (fun b r => b ++ r) [] "u" (some "x") ∧
    extract_by_selector_attr [Node.elem "a" [] NodeList.nil] "x" =
      extract_by_selector_attr [] "x" ++ extract_by_selector_attr [] "x" :=
  C1_missing_attribute (fun b r => b ++ r) [] [] (Node.elem "a" [] NodeList.nil) "u" "x"
    (by decide) (by rfl)

/-- C2, counterexample: an `ExtractedItem` produced by `extract_items` can have
NEITHER field populated — an img element without `src` yields an item whose
text and attr are both absent, so "exactly one of text/attr is populated" is
false. -/
theorem C2_counterexample :
    extract_items (fun b r => b ++ r) [Node.elem "img" [] NodeList.nil] "http://e"
        (some "src") =
      [⟨"http://e", Option.none, Option.none⟩] ∧
    (ExtractedItem.mk "http://e" Option.none Option.none).text = Option.none ∧
    (ExtractedItem.mk "http://e" Option.none Option.none).attr = Option.none :=
  ⟨rfl, rfl, rfl⟩

/-- C2 (amended): every item produced by `extract_items` has AT MOST one of
text/attr populated, never both: with a falsy attr argument the text field is
populated and attr is absent; with a truthy attr argument the text field is
absent (and attr is populated exactly when the node carried the attribute,
which the counterexample shows can fail). -/
theorem C2_item_fields (join : String → String → String) (matched : List Node)
    (base : String) (attr : Option String) :
    ∀ it ∈ extract_items join matched base attr,
      (¬(it.text ≠ Option.none ∧ it.attr ≠ Option.none)) ∧
      (pyTruthy attr = false → (∃ t, it.text = some t) ∧ it.attr = Option.none) ∧
      (pyTruthy attr = true → it.text = Option.none) := by
  intro it hit
  rw [extract_items] at hit
  obtain ⟨el, hel, heq⟩ := List.mem_map.mp hit
  by_cases hb : pyTruthy attr = true
  · rw [if_pos hb] at heq
    subst heq
    refine ⟨?_, ?_, ?_⟩
    · rintro ⟨htext, _⟩
      exact htext rfl
    · intro hfalse
      rw [hb] at hfalse
      cases hfalse
    · intro _
      rfl
  · rw [if_neg hb] at heq
    subst heq
    refine ⟨?_, ?_, ?_⟩
    · rintro ⟨_, hattr⟩
      exact hattr rfl
    · intro _
      exact ⟨⟨el.getTextStrip, rfl⟩, rfl⟩
    · intro htrue
      exact absurd htrue hb

theorem C2_witness :
    (¬((ExtractedItem.mk "u" (some "hi") Option.none).text ≠ Option.none ∧
       (ExtractedItem.mk "u" (some "hi") Option.none).attr ≠ Option.none)) ∧
    (pyTruthy Option.none = false →
      (∃ t, (ExtractedItem.mk "u" (some "hi") Option.none).text = some t) ∧
      (ExtractedItem.mk "u" (some "hi") Option.none).attr = Option.none) ∧
    (pyTruthy Option.none = true →
      (ExtractedItem.mk "u" (some "hi") Option.none).text = Option.none) :=
  C2_item_fields (fun b r => b ++ r) [Node.text "hi"] "u" Option.none
    ⟨"u", some "hi", Option.none⟩ (by decide)

/-- C5: if the loaded robots policy disallows the resolved URL then
`Fetcher.get` fails with the PermissionError outcome and issues no HTTP
request (the outcome is independent of the transport and the request log is
empty); and when loading or parsing the robots file failed, the cached
policy is empty and every URL is allowed. -/
theorem C5_fetcher_gate (f : FetcherState) (join : String → String → String)
    (http : String → HttpResponse) (url : String)
    (hdeny : Fetcher.allowed f (resolvedUrl f join url) = false) :
    (Fetcher.get f join http url =
       ⟨.error (.permissionError (resolvedUrl f join url)), []⟩) ∧
    (∀ (b : Option String) (u : String),
       Fetcher.allowed ⟨b, init_robots (.error ())⟩ u = true) := by
  constructor
  · rw [Fetcher.get]
    simp [hdeny]
  · intro b u
    rfl

theorem C5_witness :
    Fetcher.get ⟨Option.none, some ⟨fun _ _ => false⟩⟩ (fun _ u => u)
        (fun _ => ⟨200, ""⟩) "http://x" =
      ⟨.error (.permissionError "http://x"), []⟩ :=
  (C5_fetcher_gate ⟨Option.none, some ⟨fun _ _ => false⟩⟩ (fun _ u => u)
    (fun _ => ⟨200, ""⟩) "http://x" (by rfl)).1

/-- C8: `extract_table` implements the specified table extraction: header
labels come from an explicit thead section when present and otherwise from
the first row, which is then consumed and excluded from the data rows; each
remaining row whose td count equals the header count becomes a record keyed
by the header labels, and every row with a differing cell count is silently
dropped. -/
theorem C8_extract_table_spec (t : Option Node) :
    extract_table t = specTableExtraction t := by
  cases t with
  | none => rfl
  | some table =>
    rw [extract_table, specTableExtraction]
    cases h : table.findAllTag (fun s => s = "tr") with
    | nil => rfl
    | cons r0 rest =>
      cases hh : table.findTag "thead" with
      | none => simp
      | some hnode => simp
